import Mathlib

/-!
# Verification of the collection / filter / dedup / merge pipeline of `collect.py`

This file is a shallow embedding of the core pipeline of the daily news
collector (`src/collect.py`): the time-window filter (`filter_by_date`),
the keyword exclusion filter (`filter_excluded_keywords`), the Jaccard
deduplicator (`deduplicate`), the positional id assignment performed on
entry to the relevance step (`call_claude` / `call_claude_api`), and the
merging and ranking of the relevance verdict (`merge_results`).

Python `dict` records are modelled by the `Article` structure; timestamps
are modelled by `Datetime` (wall-clock seconds plus an optional UTC offset);
Python's float comparison `len(intersection) / len(union) > 0.6` is modelled
exactly by the integer comparison `3 * |union| < 5 * |intersection|` (both
sides of the float comparison are small-denominator rationals, so the
double-precision comparison agrees with the exact rational one); Python's
stable `list.sort` is modelled by the stable insertion sort `sortByRank`,
whose stability is proved (`filter_sortByRank`).
-/

set_option maxHeartbeats 1000000

namespace Collect

/-- Model of a parsed Python `datetime`: wall-clock time in seconds together
with an optional UTC offset in seconds (`none` models a naive datetime,
`some 0` models `timezone.utc`). -/
structure Datetime where
  sec : Int
  tz : Option Int
deriving DecidableEq

/-- Application of `pub.replace(tzinfo=timezone.utc)`, performed exactly when the parsed
datetime is naive (`if pub.tzinfo is None` in `filter_by_date`). -/
def Datetime.withUTC (d : Datetime) : Datetime :=
  if d.tz = none then { d with tz := some 0 } else d

/-- The instant on the UTC timeline represented by an aware datetime:
Python compares aware datetimes by wall-clock time minus UTC offset. -/
def Datetime.instant (d : Datetime) : Int :=
  d.sec - d.tz.getD 0

/-- Canonical article record produced by the source adapters
(`fetch_google_news_rss`, `fetch_hackernews`).  The `published` field models
the stored publish-date string through the lens of `datetime.fromisoformat`:
`some d` when the stored string parses to the datetime `d`, and `none` when
the `published` key is missing or the string does not parse (both cases land
in the same `except (ValueError, KeyError)` of `filter_by_date`).
`hn_url` and `points` are the provenance-specific fields of the Hacker News
adapter; `id`, `summary_ja` and `importance` start out absent (`none`). -/
structure Article where
  title : String
  url : String := ""
  published : Option Datetime := none
  source : String := ""
  lang : String := ""
  via : String := ""
  hn_url : Option String := none
  points : Option Int := none
  id : Option String := none
  summary_ja : Option String := none
  importance : Option String := none
deriving DecidableEq

/-- The per-article predicate of `filter_by_date`: the publish date parsed
(`published ≠ none`), is made aware (naive is re-tagged as UTC), and the
resulting instant is at least `since`.  Unparseable or missing dates fall
into the `except` branch and are dropped. -/
def keepDate (since : Datetime) (a : Article) : Bool :=
  match a.published with
  | some pub => decide (since.instant ≤ pub.withUTC.instant)
  | none => false

/-- Function `filter_by_date(articles, since)` from `collect.py`: keep exactly the
articles whose publish date parses and is `>= since` (the caller passes the
aware instant `since = now - timedelta(hours=24)`). -/
def filter_by_date (articles : List Article) (since : Datetime) : List Article :=
  articles.filter (keepDate since)

/-- Claim C4: the time-window filter keeps exactly the articles whose
`published` parses and satisfies `published ≥ since` (`since = now - W`),
with the boundary inclusive (equality retained, one second earlier
excluded), naive timestamps interpreted as UTC, unparseable or missing
dates excluded; it preserves input order (output is a sublist of the input)
and is idempotent. -/
theorem filter_by_date_spec (l : List Article) (since : Datetime) :
    (filter_by_date l since).Sublist l
    ∧ (∀ a, a ∈ filter_by_date l since ↔
        a ∈ l ∧ ∃ d, a.published = some d ∧ since.instant ≤ d.withUTC.instant)
    ∧ (∀ a : Article, a.published = none → a ∉ filter_by_date l since)
    ∧ (∀ (a : Article) (s : Int),
        keepDate since { a with published := some ⟨s, none⟩ } =
          decide (since.instant ≤ s))
    ∧ keepDate since { title := "t", published := some ⟨since.instant, some 0⟩ } = true
    ∧ keepDate since { title := "t", published := some ⟨since.instant - 1, some 0⟩ } = false
    ∧ filter_by_date (filter_by_date l since) since = filter_by_date l since := by
  refine ⟨List.filter_sublist l, ?_, ?_, ?_, ?_, ?_, ?_⟩
  · intro a
    constructor
    · intro h
      rw [filter_by_date, List.mem_filter] at h
      refine ⟨h.1, ?_⟩
      rcases hp : a.published with _ | d
      · rw [keepDate, hp] at h; simp at h
      · exact ⟨d, rfl, by rw [keepDate, hp] at h; exact of_decide_eq_true h.2⟩
    · rintro ⟨hmem, d, hd, hle⟩
      rw [filter_by_date, List.mem_filter]
      exact ⟨hmem, by rw [keepDate, hd]; exact decide_eq_true hle⟩
  · intro a hnone hmem
    rw [filter_by_date, List.mem_filter, keepDate, hnone] at hmem
    simp at hmem
  · intro a s
    simp [keepDate, Datetime.withUTC, Datetime.instant]
  · simp [keepDate, Datetime.withUTC, Datetime.instant]
  · simp [keepDate, Datetime.withUTC, Datetime.instant]
  · simp only [filter_by_date, List.filter_filter]
    simp

/-- A "word" character of the regex `\w`: alphanumeric or underscore. -/
def isWordChar (c : Char) : Bool :=
  c.isAlphanum || c == '_'

/-- Left-to-right scan collecting the maximal runs of word characters:
`cur` holds the current run, reversed, or `none` outside of a run. -/
def wordRunsAux : Option (List Char) → List Char → List (List Char)
  | some run, [] => [run.reverse]
  | none, [] => []
  | cur, c :: cs =>
    if isWordChar c then wordRunsAux (some (c :: cur.getD [])) cs
    else
      match cur with
      | some run => run.reverse :: wordRunsAux none cs
      | none => wordRunsAux none cs

/-- Maximal runs of word characters, i.e. `re.findall(r'\w+', s)` on the
character list of `s`: punctuation and other non-word characters only
separate runs and appear in no token. -/
def wordRuns (l : List Char) : List (List Char) :=
  wordRunsAux none l

/-- Helper `tokenize` of `deduplicate`: `set(re.findall(r'\w+', title.lower()))`,
the set of lowercased word tokens of a title. -/
def tokenize (title : String) : Finset String :=
  ((wordRuns (title.data.map Char.toLower)).map List.asString).toFinset

/-- The duplicate test of the `deduplicate` loop: some already-kept token
set `s` satisfies `union and len(intersection) / len(union) > 0.6`.  The
float comparison is modelled exactly by `3 * |union| < 5 * |intersection|`
(see the file comment). -/
def isDup (tokens : Finset String) (seen : List (Finset String)) : Bool :=
  seen.any (fun s =>
    decide (tokens ∪ s ≠ ∅) && decide (3 * (tokens ∪ s).card < 5 * (tokens ∩ s).card))

/-- The loop of `deduplicate`: `seen` is the accumulator `seen_tokens` of
token sets of already-kept articles; a duplicate is dropped and its token
set is never appended to `seen`. -/
def dedupAux (seen : List (Finset String)) : List Article → List Article
  | [] => []
  | a :: rest =>
    if isDup (tokenize a.title) seen then dedupAux seen rest
    else a :: dedupAux (seen ++ [tokenize a.title]) rest

/-- Function `deduplicate(articles)` from `collect.py`. -/
def deduplicate (articles : List Article) : List Article :=
  dedupAux [] articles

/-- Jaccard similarity of two token sets as an exact rational number,
taken to be `0` when the union is empty (the spec's convention). -/
def jaccardSim (t s : Finset String) : ℚ :=
  if t ∪ s = ∅ then 0 else ((t ∩ s).card : ℚ) / ((t ∪ s).card : ℚ)

/-- Spec-side duplicate test: the Jaccard similarity with some earlier kept
token set strictly exceeds `0.6 = 3/5`. -/
def isDupSpec (tokens : Finset String) (seen : List (Finset String)) : Bool :=
  seen.any (fun s => decide ((3 : ℚ) / 5 < jaccardSim tokens s))

/-- Spec-side greedy single pass, written with the rational Jaccard
similarity of the spec text. -/
def dedupSpecAux (seen : List (Finset String)) : List Article → List Article
  | [] => []
  | a :: rest =>
    if isDupSpec (tokenize a.title) seen then dedupSpecAux seen rest
    else a :: dedupSpecAux (seen ++ [tokenize a.title]) rest

/-- Spec-side deduplicator. -/
def deduplicateSpec (articles : List Article) : List Article :=
  dedupSpecAux [] articles

theorem isDup_eq_isDupSpec (tokens : Finset String) (seen : List (Finset String)) :
    isDup tokens seen = isDupSpec tokens seen := by
  unfold isDup isDupSpec
  congr 1
  funext s
  rcases eq_or_ne (tokens ∪ s) ∅ with h | h
  · simp only [jaccardSim, h, if_pos rfl]
    norm_num
  · have hcard : 0 < (tokens ∪ s).card :=
      Finset.card_pos.mpr (Finset.nonempty_iff_ne_empty.mpr h)
    have hpos : 0 < ((tokens ∪ s).card : ℚ) := by exact_mod_cast hcard
    have hiff : (3 * (tokens ∪ s).card < 5 * (tokens ∩ s).card) ↔
        ((3 : ℚ) / 5 < jaccardSim tokens s) := by
      rw [jaccardSim, if_neg h, div_lt_div_iff₀ (by norm_num) hpos,
        mul_comm (((tokens ∩ s).card : ℚ)) 5]
      exact_mod_cast Iff.rfl
    rw [decide_eq_true (show tokens ∪ s ≠ ∅ from h), Bool.true_and, decide_eq_decide]
    exact hiff

theorem dedupAux_eq_spec (seen : List (Finset String)) (l : List Article) :
    dedupAux seen l = dedupSpecAux seen l := by
  induction l generalizing seen with
  | nil => rfl
  | cons a rest ih =>
    simp only [dedupAux, dedupSpecAux, isDup_eq_isDupSpec]
    by_cases hd : isDupSpec (tokenize a.title) seen
    · simp [hd, ih]
    · simp [hd, ih]

theorem dedupAux_sublist (seen : List (Finset String)) (l : List Article) :
    (dedupAux seen l).Sublist l := by
  induction l generalizing seen with
  | nil => simp [dedupAux]
  | cons a rest ih =>
    rw [dedupAux]
    by_cases hd : isDup (tokenize a.title) seen
    · simp only [if_pos hd]
      exact (ih seen).cons a
    · simp only [if_neg hd]
      exact (ih _).cons₂ a

theorem dedupAux_idem (l : List Article) (seen : List (Finset String)) :
    dedupAux seen (dedupAux seen l) = dedupAux seen l := by
  induction l generalizing seen with
  | nil => rfl
  | cons a rest ih =>
    by_cases hd : isDup (tokenize a.title) seen
    · simp only [dedupAux, if_pos hd]
      exact ih seen
    · simp only [dedupAux, if_neg hd]
      rw [ih]

/-- Claim C1: the deduplicator returns a subsequence of its input (order
preserved), and it equals the greedy single pass of the spec: an article is
discarded iff the rational Jaccard similarity (0 on empty union) between
its lowercased word-token set and the token set of some earlier kept
article strictly exceeds 0.6; a discarded article's tokens never enter the
accumulator, so later articles are never compared against them. -/
theorem deduplicate_spec (l : List Article) :
    (deduplicate l).Sublist l ∧ deduplicate l = deduplicateSpec l :=
  ⟨dedupAux_sublist [] l, dedupAux_eq_spec [] l⟩

/-- Claim C7: the deduplicator is idempotent: applied to its own output it
returns that output unchanged. -/
theorem deduplicate_idem (l : List Article) :
    deduplicate (deduplicate l) = deduplicate l :=
  dedupAux_idem l []

/-- Python's substring test `kw.lower() in title_lower` on the lowercased
title, modelled as an infix relation on character lists. -/
def titleContains (titleLower : List Char) (kw : String) : Bool :=
  decide ((kw.data.map Char.toLower) <:+: titleLower)

/-- Function `filter_excluded_keywords(articles, exclude)` from `collect.py`: an
empty denylist returns the input unchanged (`if not exclude`); otherwise an
article survives iff its lowercased title contains no lowercased denylist
term as a substring. -/
def filter_excluded_keywords (articles : List Article) (exclude : List String) :
    List Article :=
  if exclude.isEmpty then articles
  else articles.filter (fun a =>
    !(exclude.any (fun kw => titleContains (a.title.data.map Char.toLower) kw)))

/-- Claim C8: the exclusion filter drops exactly the articles whose lowercased
title contains some lowercased denylist term as a substring; an empty
denylist is a no-op; survivors keep their input order; and on the concrete
denylist `["crypto"]` the title "Crypto prices surge" is dropped while
"AI prices surge" is kept. -/
theorem filter_excluded_keywords_spec (l : List Article) (ex : List String) :
    filter_excluded_keywords l [] = l
    ∧ (filter_excluded_keywords l ex).Sublist l
    ∧ (∀ a, a ∈ filter_excluded_keywords l ex ↔
        a ∈ l ∧ ¬ ∃ kw ∈ ex, (kw.data.map Char.toLower) <:+: (a.title.data.map Char.toLower))
    ∧ filter_excluded_keywords
        [{ title := "Crypto prices surge" }, { title := "AI prices surge" }] ["crypto"]
        = [{ title := "AI prices surge" }] := by
  refine ⟨by simp [filter_excluded_keywords], ?_, ?_, by decide⟩
  · rw [filter_excluded_keywords]
    split
    · exact List.Sublist.refl l
    · exact List.filter_sublist l
  · intro a
    rw [filter_excluded_keywords]
    split
    · rename_i hex
      rw [List.isEmpty_iff] at hex
      subst hex
      simp
    · simp only [List.mem_filter, Bool.not_eq_true', List.any_eq_false, titleContains,
        decide_eq_false_iff_not]
      constructor
      · rintro ⟨hmem, hall⟩
        exact ⟨hmem, fun ⟨kw, hkw, hinf⟩ => hall kw hkw (decide_eq_true hinf)⟩
      · rintro ⟨hmem, hno⟩
        exact ⟨hmem, fun kw hkw hinf => hno ⟨kw, hkw, of_decide_eq_true hinf⟩⟩

/-- One entry of the `articles` list of the parsed relevance response:
`{id, summary_ja, importance}`; `none` models an absent key. -/
structure RatedEntry where
  id : String
  summary_ja : Option String := none
  importance : Option String := none
deriving DecidableEq

/-- The JSON object extracted from the relevance transport's output by
`_extract_json` (identical for the CLI and the API transport); only its
`articles` list is read by `merge_results`. -/
structure ClaudeResult where
  articles : List RatedEntry
deriving DecidableEq

/-- The dict comprehension `rated = {a["id"]: a for a in claude_result["articles"]}`:
looking up an id returns the last entry carrying it. -/
def ratedLookup (entries : List RatedEntry) (i : String) : Option RatedEntry :=
  entries.foldl (fun acc e => if e.id = i then some e else acc) none

/-- Membership test `a["id"] in rated` together with the lookup `rated[a["id"]]`. -/
def lookupFor (entries : List RatedEntry) (a : Article) : Option RatedEntry :=
  match a.id with
  | some i => ratedLookup entries i
  | none => none

/-- The attachment performed on an accepted article:
`a["summary_ja"] = rated[id].get("summary_ja", "")` and
`a["importance"] = rated[id].get("importance", "medium")`. -/
def attachRated (e : RatedEntry) (a : Article) : Article :=
  { a with summary_ja := some (e.summary_ja.getD ""),
           importance := some (e.importance.getD "medium") }

/-- The per-article result of the accepted branch of `merge_results`. -/
def attachFor (entries : List RatedEntry) (a : Article) : Article :=
  match lookupFor entries a with
  | some e => attachRated e a
  | none => a

/-- The accepted/rejected loop of `merge_results` in the branch where the
response names at least one entry. -/
def partitionRated (entries : List RatedEntry) : List Article → List Article × List Article
  | [] => ([], [])
  | a :: rest =>
    match lookupFor entries a with
    | some e => (attachRated e a :: (partitionRated entries rest).1,
                 (partitionRated entries rest).2)
    | none => ((partitionRated entries rest).1, a :: (partitionRated entries rest).2)

/-- The fallback assignment of `merge_results`:
`a["summary_ja"] = ""` and `a["importance"] = None`. -/
def clearFields (a : Article) : Article :=
  { a with summary_ja := some "", importance := none }

/-- Rank key `importance_order.get(a.get("importance"), 3)`: high ↦ 0,
medium ↦ 1, low ↦ 2, everything else (in particular unset) ↦ 3. -/
def importanceOrder : Option String → Nat
  | some "high" => 0
  | some "medium" => 1
  | some "low" => 2
  | _ => 3

/-- The comparison underlying `selected.sort(key=...)`. -/
def importanceLe (a b : Article) : Bool :=
  decide (importanceOrder a.importance ≤ importanceOrder b.importance)

/-- Insert an article into a list, passing over exactly the elements of
strictly smaller rank, so that it lands before every element of equal rank. -/
def insertByRank (a : Article) : List Article → List Article
  | [] => [a]
  | b :: l => if importanceLe a b then a :: b :: l else b :: insertByRank a l

/-- Stable ascending sort by importance rank, the model of Python's stable
`selected.sort(key=lambda a: importance_order.get(a.get("importance"), 3))`.
Insertion sort inserting each element in front of later elements of equal
rank is stable; stability is proved as `filter_sortByRank` below. -/
def sortByRank : List Article → List Article
  | [] => []
  | a :: l => insertByRank a (sortByRank l)

/-- Function `merge_results(articles, claude_result)` from `collect.py`: partition
the input into `(selected, excluded)` — falling back to all-selected with
empty summary and unset importance when the response is missing
(`claude_result` falsy) or names no entry (`claude_result.get("articles")`
falsy) — then stably sort `selected` by importance rank. -/
def merge_results (articles : List Article) (claude_result : Option ClaudeResult) :
    List Article × List Article :=
  match claude_result with
  | some r =>
    if r.articles.isEmpty then
      (sortByRank (articles.map clearFields), [])
    else
      (sortByRank (partitionRated r.articles articles).1,
       (partitionRated r.articles articles).2)
  | none => (sortByRank (articles.map clearFields), [])

/-- Prop-level form of the sort comparison. -/
def RankLe (a b : Article) : Prop :=
  importanceOrder a.importance ≤ importanceOrder b.importance

theorem perm_insertByRank (a : Article) (l : List Article) :
    (insertByRank a l).Perm (a :: l) := by
  induction l with
  | nil => exact List.Perm.refl _
  | cons b l ih =>
    rw [insertByRank]
    split
    · exact List.Perm.refl _
    · exact (ih.cons b).trans (List.Perm.swap a b l)

theorem mem_insertByRank {x a : Article} {l : List Article} :
    x ∈ insertByRank a l ↔ x = a ∨ x ∈ l := by
  rw [(perm_insertByRank a l).mem_iff, List.mem_cons]

theorem sorted_insertByRank (a : Article) {l : List Article}
    (h : l.Pairwise RankLe) : (insertByRank a l).Pairwise RankLe := by
  induction l with
  | nil => simp [insertByRank, List.Pairwise]
  | cons b l ih =>
    rw [insertByRank]
    rcases List.pairwise_cons.mp h with ⟨hb, hl⟩
    split
    · rename_i hab
      rw [importanceLe, decide_eq_true_iff] at hab
      refine List.pairwise_cons.mpr ⟨?_, h⟩
      intro x hx
      rcases List.mem_cons.mp hx with rfl | hx
      · exact hab
      · exact le_trans hab (hb x hx)
    · rename_i hab
      rw [importanceLe, decide_eq_true_iff] at hab
      refine List.pairwise_cons.mpr ⟨?_, ih hl⟩
      intro x hx
      rcases mem_insertByRank.mp hx with rfl | hx
      · exact le_of_not_le hab
      · exact hb x hx

theorem perm_sortByRank (l : List Article) : (sortByRank l).Perm l := by
  induction l with
  | nil => exact List.Perm.refl _
  | cons a l ih => exact (perm_insertByRank a (sortByRank l)).trans (ih.cons a)

theorem sorted_sortByRank (l : List Article) : (sortByRank l).Pairwise RankLe := by
  induction l with
  | nil => simp [sortByRank]
  | cons a l ih => exact sorted_insertByRank a ih

theorem insertByRank_of_le {a b : Article} (l : List Article)
    (hab : RankLe a b) : insertByRank a (b :: l) = a :: b :: l := by
  rw [insertByRank, if_pos (show importanceLe a b = true from decide_eq_true hab)]

theorem sortByRank_of_sorted {l : List Article} (h : l.Pairwise RankLe) :
    sortByRank l = l := by
  induction l with
  | nil => rfl
  | cons a l ih =>
    rcases List.pairwise_cons.mp h with ⟨ha, hl⟩
    rw [sortByRank, ih hl]
    cases l with
    | nil => rfl
    | cons b l => exact insertByRank_of_le l (ha b (List.mem_cons_self b l))

theorem filter_insertByRank (a : Article) (l : List Article) (k : Nat) :
    (insertByRank a l).filter (fun x => importanceOrder x.importance == k)
      = if importanceOrder a.importance == k then
          a :: l.filter (fun x => importanceOrder x.importance == k)
        else l.filter (fun x => importanceOrder x.importance == k) := by
  induction l with
  | nil =>
    rw [insertByRank]
    simp [List.filter_cons]
  | cons b l ih =>
    rw [insertByRank]
    split
    · rw [List.filter_cons]
    · rename_i hab
      rw [importanceLe, decide_eq_true_iff] at hab
      rw [List.filter_cons, List.filter_cons, ih]
      by_cases hak : importanceOrder a.importance = k
      · have h1 : (importanceOrder a.importance == k) = true := beq_iff_eq.mpr hak
        have h2 : (importanceOrder b.importance == k) = false := by
          simp only [beq_eq_false_iff_ne, ne_eq]
          omega
        simp [h1, h2]
      · have h1 : (importanceOrder a.importance == k) = false := by
          simp only [beq_eq_false_iff_ne, ne_eq]
          exact hak
        simp [h1]

theorem filter_sortByRank (l : List Article) (k : Nat) :
    (sortByRank l).filter (fun x => importanceOrder x.importance == k)
      = l.filter (fun x => importanceOrder x.importance == k) := by
  induction l with
  | nil => rfl
  | cons a l ih =>
    rw [sortByRank, filter_insertByRank, List.filter_cons, ih]

theorem partitionRated_fst (entries : List RatedEntry) (l : List Article) :
    (partitionRated entries l).1
      = (l.filter (fun a => (lookupFor entries a).isSome)).map (attachFor entries) := by
  induction l with
  | nil => rfl
  | cons a rest ih =>
    rcases h : lookupFor entries a with _ | e
    · simp [partitionRated, h, List.filter_cons, ih]
    · simp [partitionRated, h, List.filter_cons, ih, attachFor]

theorem partitionRated_snd (entries : List RatedEntry) (l : List Article) :
    (partitionRated entries l).2 = l.filter (fun a => !(lookupFor entries a).isSome) := by
  induction l with
  | nil => rfl
  | cons a rest ih =>
    rcases h : lookupFor entries a with _ | e <;>
      simp [partitionRated, h, List.filter_cons, ih]

theorem length_filter_bool (p : Article → Bool) (l : List Article) :
    (l.filter p).length + (l.filter (fun a => !p a)).length = l.length := by
  induction l with
  | nil => rfl
  | cons a rest ih =>
    by_cases h : p a = true
    · simp only [List.filter_cons, h, Bool.not_true, if_true, if_false, List.length_cons]
      simp only [show (false = true) = False by simp, if_false]
      omega
    · rw [Bool.not_eq_true] at h
      simp only [List.filter_cons, h, Bool.not_false, if_true, if_false, List.length_cons]
      simp only [show (false = true) = False by simp, if_false, List.length_cons]
      omega

/-- Whether `merge_results` treats an article as accepted: everything, in
both fallback branches; membership of the article's id in the rated dict
otherwise. -/
def acceptedB (claude_result : Option ClaudeResult) (a : Article) : Bool :=
  match claude_result with
  | some r => if r.articles.isEmpty then true else (lookupFor r.articles a).isSome
  | none => true

/-- The per-article rewrite `merge_results` applies to an accepted article. -/
def mergeTransform (claude_result : Option ClaudeResult) (a : Article) : Article :=
  match claude_result with
  | some r => if r.articles.isEmpty then clearFields a else attachFor r.articles a
  | none => clearFields a

/-- Characterization of `merge_results`: `selected` is the stable rank sort
of the transformed accepted articles, `excluded` is the rejected articles
untouched, in order. -/
theorem merge_char (l : List Article) (r : Option ClaudeResult) :
    (merge_results l r).1 = sortByRank ((l.filter (acceptedB r)).map (mergeTransform r))
    ∧ (merge_results l r).2 = l.filter (fun a => !acceptedB r a) := by
  rcases r with _ | r
  · have hacc : acceptedB none = fun _ : Article => true := rfl
    have hf : l.filter (acceptedB none) = l := List.filter_eq_self.mpr (fun a _ => rfl)
    constructor
    · show sortByRank (l.map clearFields) = _
      rw [hf]
      rfl
    · show ([] : List Article) = _
      symm
      rw [List.filter_eq_nil_iff]
      intro a _
      simp [acceptedB]
  · by_cases hemp : r.articles.isEmpty = true
    · have hacc : acceptedB (some r) = fun _ : Article => true := by
        funext a
        simp [acceptedB, hemp]
      have htr : mergeTransform (some r) = clearFields := by
        funext a
        simp [mergeTransform, hemp]
      have hmr : merge_results l (some r) = (sortByRank (l.map clearFields), []) := by
        simp [merge_results, hemp]
      have hf : l.filter (fun _ : Article => true) = l :=
        List.filter_eq_self.mpr (fun a _ => rfl)
      constructor
      · rw [hmr, hacc, htr, hf]
      · rw [hmr, hacc]
        symm
        rw [List.filter_eq_nil_iff]
        intro a _
        simp
    · rw [Bool.not_eq_true] at hemp
      have hacc : acceptedB (some r) = fun a => (lookupFor r.articles a).isSome := by
        funext a
        simp [acceptedB, hemp]
      have htr : mergeTransform (some r) = attachFor r.articles := by
        funext a
        simp [mergeTransform, hemp]
      have hmr : merge_results l (some r)
          = (sortByRank (partitionRated r.articles l).1, (partitionRated r.articles l).2) := by
        simp [merge_results, hemp]
      constructor
      · rw [hmr, hacc, htr, ← partitionRated_fst]
      · rw [hmr, hacc, partitionRated_snd]

/-- Erase the two fields `merge_results` writes. -/
def eraseMergeFields (a : Article) : Article :=
  { a with summary_ja := none, importance := none }

theorem eraseMerge_mergeTransform (r : Option ClaudeResult) (a : Article) :
    eraseMergeFields (mergeTransform r a) = eraseMergeFields a := by
  rcases r with _ | r
  · rfl
  · rw [mergeTransform]
    split
    · rfl
    · rw [attachFor]
      rcases lookupFor r.articles a with _ | e
      · rfl
      · rfl

/-- Claim C2: when the relevance response is `None` (total failure) or names
zero entries, `merge_results` selects the whole input in its original
order with `summary_ja` set to the empty string and `importance` unset,
and excludes nothing. -/
theorem merge_results_fallback (l : List Article) :
    merge_results l none = (l.map clearFields, [])
    ∧ merge_results l (some ⟨[]⟩) = (l.map clearFields, []) := by
  have hsorted : (l.map clearFields).Pairwise RankLe :=
    List.pairwise_of_forall_mem_list (by
      intro a ha b hb
      rcases List.mem_map.mp ha with ⟨a', _, rfl⟩
      rcases List.mem_map.mp hb with ⟨b', _, rfl⟩
      exact le_refl 3)
  constructor
  · obtain ⟨h1, h2⟩ := merge_char l none
    have hfilter : l.filter (acceptedB none) = l := List.filter_eq_self.mpr (fun a _ => rfl)
    rw [hfilter] at h1
    have hmap : l.map (mergeTransform none) = l.map clearFields := rfl
    rw [hmap, sortByRank_of_sorted hsorted] at h1
    have h2' : (merge_results l none).2 = [] := by
      rw [h2, List.filter_eq_nil_iff]
      intro a _
      simp [acceptedB]
    exact Prod.ext h1 h2'
  · obtain ⟨h1, h2⟩ := merge_char l (some ⟨[]⟩)
    have hfilter : l.filter (acceptedB (some ⟨[]⟩)) = l :=
      List.filter_eq_self.mpr (fun a _ => rfl)
    rw [hfilter] at h1
    have hmap : l.map (mergeTransform (some ⟨[]⟩)) = l.map clearFields := rfl
    rw [hmap, sortByRank_of_sorted hsorted] at h1
    have h2' : (merge_results l (some ⟨[]⟩)).2 = [] := by
      rw [h2, List.filter_eq_nil_iff]
      intro a _
      simp [acceptedB]
    exact Prod.ext h1 h2'

/-- Claim C6: selected and excluded partition the input: `excluded` is
exactly the rejected input articles in input order, `selected` is a
permutation of the transformed accepted input articles, and no input
article is lost or duplicated: the lengths add up to the input length. -/
theorem merge_results_partition (l : List Article) (r : Option ClaudeResult) :
    (merge_results l r).1.Perm ((l.filter (acceptedB r)).map (mergeTransform r))
    ∧ (merge_results l r).2 = l.filter (fun a => !acceptedB r a)
    ∧ (merge_results l r).1.length + (merge_results l r).2.length = l.length := by
  obtain ⟨h1, h2⟩ := merge_char l r
  have hp : (merge_results l r).1.Perm ((l.filter (acceptedB r)).map (mergeTransform r)) := by
    rw [h1]
    exact perm_sortByRank _
  refine ⟨hp, h2, ?_⟩
  rw [h2, hp.length_eq, List.length_map]
  exact length_filter_bool (acceptedB r) l

/-- Claim C10: `merge_results` writes only `summary_ja` and `importance`:
excluded articles are input articles with no field changed at all (a
sublist of the input), and after erasing those two fields the combined
output lists form a permutation of the input — every output article agrees
with an input article on every other field. -/
theorem merge_results_frame (l : List Article) (r : Option ClaudeResult) :
    (merge_results l r).2.Sublist l
    ∧ (((merge_results l r).1 ++ (merge_results l r).2).map eraseMergeFields).Perm
        (l.map eraseMergeFields)
    ∧ (∀ a ∈ (merge_results l r).1, ∃ b ∈ l, eraseMergeFields a = eraseMergeFields b) := by
  obtain ⟨h1, h2⟩ := merge_char l r
  have hsub : (merge_results l r).2.Sublist l := by
    rw [h2]
    exact List.filter_sublist l
  have step2 : ((l.filter (acceptedB r)).map (mergeTransform r)).map eraseMergeFields
      = (l.filter (acceptedB r)).map eraseMergeFields := by
    rw [List.map_map]
    exact List.map_congr_left (fun a _ => eraseMerge_mergeTransform r a)
  have hperm : (((merge_results l r).1 ++ (merge_results l r).2).map eraseMergeFields).Perm
      (l.map eraseMergeFields) := by
    rw [h1, h2, List.map_append]
    have step1 := (perm_sortByRank ((l.filter (acceptedB r)).map (mergeTransform r))).map
      eraseMergeFields
    have step3 : ((l.filter (acceptedB r)).map eraseMergeFields
        ++ (l.filter (fun a => !acceptedB r a)).map eraseMergeFields).Perm
        (l.map eraseMergeFields) := by
      rw [← List.map_append]
      exact (List.filter_append_perm _ l).map eraseMergeFields
    have step3' : (((l.filter (acceptedB r)).map (mergeTransform r)).map eraseMergeFields
        ++ (l.filter (fun a => !acceptedB r a)).map eraseMergeFields).Perm
        (l.map eraseMergeFields) := by
      rw [step2]
      exact step3
    exact (step1.append_right _).trans step3'
  refine ⟨hsub, hperm, ?_⟩
  intro a ha
  have hmm : eraseMergeFields a ∈ l.map eraseMergeFields :=
    hperm.subset (List.mem_map_of_mem _ (List.mem_append_left _ ha))
  rcases List.mem_map.mp hmm with ⟨b, hb, he⟩
  exact ⟨b, hb, he.symm⟩

/-- Claim C3: when the response names at least one entry, each input article
whose id is in the rated dict is selected with the response's summary and
importance attached (summary defaulting to the empty string, importance to
"medium" when omitted), every other article is excluded unmodified in
input order, and `selected` is the stable ascending sort by importance
rank (high 0, medium 1, low 2, unset 3) of the attached accepted articles:
it is a permutation of them, sorted by rank, with the articles of each
rank kept in their prior relative order. -/
theorem merge_results_rated (l : List Article) (r : ClaudeResult)
    (hne : r.articles ≠ []) :
    (∀ a e, lookupFor r.articles a = some e →
      attachFor r.articles a
        = { a with summary_ja := some (e.summary_ja.getD ""),
                   importance := some (e.importance.getD "medium") })
    ∧ (merge_results l (some r)).2 = l.filter (fun a => !(lookupFor r.articles a).isSome)
    ∧ (merge_results l (some r)).1.Perm
        ((l.filter (fun a => (lookupFor r.articles a).isSome)).map (attachFor r.articles))
    ∧ (merge_results l (some r)).1.Pairwise RankLe
    ∧ ∀ k, (merge_results l (some r)).1.filter (fun x => importanceOrder x.importance == k)
        = ((l.filter (fun a => (lookupFor r.articles a).isSome)).map
            (attachFor r.articles)).filter (fun x => importanceOrder x.importance == k) := by
  have hemp : r.articles.isEmpty = false := by
    cases hh : r.articles with
    | nil => exact absurd hh hne
    | cons x t => rfl
  have hmr : merge_results l (some r)
      = (sortByRank (partitionRated r.articles l).1, (partitionRated r.articles l).2) := by
    simp [merge_results, hemp]
  refine ⟨?_, ?_, ?_, ?_, ?_⟩
  · intro a e he
    simp only [attachFor]
    rw [he]
    rfl
  · rw [hmr]
    exact partitionRated_snd r.articles l
  · rw [hmr, partitionRated_fst]
    exact perm_sortByRank _
  · rw [hmr]
    exact sorted_sortByRank _
  · intro k
    rw [hmr, partitionRated_fst]
    exact filter_sortByRank _ k

/-- The three-article input of the spec's "Merger/Ranker normal path"
example, ids "0", "1", "2". -/
def exampleArticles : List Article :=
  [{ title := "a0", id := some "0" },
   { title := "a1", id := some "1" },
   { title := "a2", id := some "2" }]

/-- The response of that example: accept id "0" as high and id "2" as low. -/
def exampleResult : ClaudeResult :=
  ⟨[{ id := "0", summary_ja := some "s0", importance := some "high" },
    { id := "2", summary_ja := some "s2", importance := some "low" }]⟩

/-- Witness for C3 at the spec's example; additionally checks concretely
that `selected` is [article 0, article 2] (high before low) and `excluded`
is [article 1]. -/
theorem merge_results_rated_witness :
    exampleResult.articles ≠ []
    ∧ ((∀ a e, lookupFor exampleResult.articles a = some e →
        attachFor exampleResult.articles a
          = { a with summary_ja := some (e.summary_ja.getD ""),
                     importance := some (e.importance.getD "medium") })
      ∧ (merge_results exampleArticles (some exampleResult)).2
          = exampleArticles.filter (fun a => !(lookupFor exampleResult.articles a).isSome)
      ∧ (merge_results exampleArticles (some exampleResult)).1.Perm
          ((exampleArticles.filter (fun a => (lookupFor exampleResult.articles a).isSome)).map
            (attachFor exampleResult.articles))
      ∧ (merge_results exampleArticles (some exampleResult)).1.Pairwise RankLe
      ∧ ∀ k, (merge_results exampleArticles (some exampleResult)).1.filter
            (fun x => importanceOrder x.importance == k)
          = ((exampleArticles.filter
              (fun a => (lookupFor exampleResult.articles a).isSome)).map
              (attachFor exampleResult.articles)).filter
              (fun x => importanceOrder x.importance == k))
    ∧ (merge_results exampleArticles (some exampleResult)).1.map (fun a => a.id)
        = [some "0", some "2"]
    ∧ (merge_results exampleArticles (some exampleResult)).2.map (fun a => a.id)
        = [some "1"] :=
  ⟨by decide, merge_results_rated exampleArticles exampleResult (by decide),
   by decide, by decide⟩

/-- The entries named by a possibly-missing response. -/
def responseEntries : Option ClaudeResult → List RatedEntry
  | some r => r.articles
  | none => []

theorem ratedLookup_aux (i : String) (e : RatedEntry) :
    ∀ (entries : List RatedEntry) (acc : Option RatedEntry),
      List.foldl (fun acc e' => if e'.id = i then some e' else acc) acc entries = some e →
      e ∈ entries ∨ acc = some e
  | [], _, hh => Or.inr hh
  | x :: t, acc, hh => by
    rw [List.foldl_cons] at hh
    rcases ratedLookup_aux i e t _ hh with he | he
    · exact Or.inl (List.mem_cons_of_mem x he)
    · by_cases hx : x.id = i
      · rw [if_pos hx] at he
        obtain rfl : x = e := Option.some.inj he
        exact Or.inl (List.mem_cons_self x t)
      · rw [if_neg hx] at he
        exact Or.inr he

theorem ratedLookup_mem {entries : List RatedEntry} {i : String} {e : RatedEntry}
    (h : ratedLookup entries i = some e) : e ∈ entries := by
  rw [ratedLookup] at h
  rcases ratedLookup_aux i e entries none h with he | he
  · exact he
  · exact absurd he (by simp)

/-- An input article with id "0". -/
def strangeArticle : Article := { title := "t", id := some "0" }

/-- A parseable response rating article "0" with importance "urgent". -/
def strangeResult : ClaudeResult := ⟨[{ id := "0", importance := some "urgent" }]⟩

/-- Claim C5 counterexample: the response importance value is attached to the
selected article without validation, so a selected article can carry the
importance "urgent", which is neither high, medium, low, nor unset. -/
theorem merge_importance_counterexample :
    ∃ a ∈ (merge_results [strangeArticle] (some strangeResult)).1,
      ¬(a.importance = some "high" ∨ a.importance = some "medium"
        ∨ a.importance = some "low" ∨ a.importance = none) := by
  decide

/-- Claim C5 amended: provided every importance value named by the response
is high, medium or low, or omitted, every selected article's importance is
high, medium or low, or unset (the claim as stated fails for a response
naming any other importance string, which is attached verbatim). -/
theorem merge_importance_values (l : List Article) (r : Option ClaudeResult)
    (hval : ∀ e ∈ responseEntries r, e.importance = none ∨ e.importance = some "high"
      ∨ e.importance = some "medium" ∨ e.importance = some "low") :
    ∀ a ∈ (merge_results l r).1, a.importance = none ∨ a.importance = some "high"
      ∨ a.importance = some "medium" ∨ a.importance = some "low" := by
  obtain ⟨h1, _⟩ := merge_char l r
  intro a ha
  rw [h1, (perm_sortByRank _).mem_iff] at ha
  rcases List.mem_map.mp ha with ⟨b, hb, rfl⟩
  rcases r with _ | r
  · exact Or.inl rfl
  · by_cases hemp : r.articles.isEmpty = true
    · have : mergeTransform (some r) b = clearFields b := by
        simp [mergeTransform, hemp]
      rw [this]
      exact Or.inl rfl
    · rw [Bool.not_eq_true] at hemp
      have hacc : (lookupFor r.articles b).isSome = true := by
        simpa [acceptedB, hemp] using (List.mem_filter.mp hb).2
      rcases he : lookupFor r.articles b with _ | e
      · rw [he] at hacc
        simp at hacc
      · have htr : mergeTransform (some r) b = attachRated e b := by
          simp [mergeTransform, hemp, attachFor, he]
        rw [htr]
        have hmem : e ∈ r.articles := by
          rw [lookupFor] at he
          rcases hid : b.id with _ | i
          · rw [hid] at he
            exact absurd he (by simp)
          · rw [hid] at he
            exact ratedLookup_mem he
        rcases hval e hmem with hv | hv | hv | hv <;> simp [attachRated, hv]

/-- Witness for the amended C5 at a concrete valid response. -/
theorem merge_importance_values_witness :
    (∀ e ∈ responseEntries (some ⟨[{ id := "0", importance := some "high" }]⟩),
      e.importance = none ∨ e.importance = some "high"
      ∨ e.importance = some "medium" ∨ e.importance = some "low")
    ∧ ∀ a ∈ (merge_results [{ title := "w", id := some "0" }]
        (some ⟨[{ id := "0", importance := some "high" }]⟩)).1,
      a.importance = none ∨ a.importance = some "high"
      ∨ a.importance = some "medium" ∨ a.importance = some "low" :=
  ⟨by decide,
   merge_importance_values [{ title := "w", id := some "0" }]
     (some ⟨[{ id := "0", importance := some "high" }]⟩) (by decide)⟩

/-- Decimal digit characters of `n`, most significant first: the reference
form of `str(n)` used to reason about `Nat.repr`. -/
def decDigits (n : Nat) : List Char :=
  if n < 10 then [Nat.digitChar n]
  else decDigits (n / 10) ++ [Nat.digitChar (n % 10)]
termination_by n
decreasing_by exact Nat.div_lt_self (by omega) (by omega)

theorem decDigits_ne_nil (n : Nat) : decDigits n ≠ [] := by
  rw [decDigits]
  split
  · simp
  · simp

theorem decDigits_small {n : Nat} (h : n < 10) : decDigits n = [Nat.digitChar n] := by
  rw [decDigits, if_pos h]

theorem decDigits_large {n : Nat} (h : ¬n < 10) :
    decDigits n = decDigits (n / 10) ++ [Nat.digitChar (n % 10)] := by
  rw [decDigits, if_neg h]

theorem digitChar_inj_lt {a b : Nat} (ha : a < 10) (hb : b < 10)
    (h : Nat.digitChar a = Nat.digitChar b) : a = b := by
  have hf : ∀ x y : Fin 10, Nat.digitChar x.val = Nat.digitChar y.val → x = y := by decide
  exact congrArg Fin.val (hf ⟨a, ha⟩ ⟨b, hb⟩ h)

theorem toDigitsCore_eq_decDigits :
    ∀ (f n : Nat) (acc : List Char), n < f →
      Nat.toDigitsCore 10 f n acc = decDigits n ++ acc := by
  intro f
  induction f with
  | zero =>
    intro n acc h
    omega
  | succ f ih =>
    intro n acc h
    show (if n / 10 = 0 then Nat.digitChar (n % 10) :: acc
      else Nat.toDigitsCore 10 f (n / 10) (Nat.digitChar (n % 10) :: acc)) = decDigits n ++ acc
    by_cases h0 : n / 10 = 0
    · have hn : n < 10 := by omega
      rw [if_pos h0, decDigits_small hn, Nat.mod_eq_of_lt hn]
      rfl
    · have hn : ¬n < 10 := by omega
      have hlt : n / 10 < f := by omega
      rw [if_neg h0, decDigits_large hn, ih (n / 10) (Nat.digitChar (n % 10) :: acc) hlt,
        List.append_assoc]
      rfl

theorem decDigits_inj : ∀ (m n : Nat), decDigits m = decDigits n → m = n
  | m, n, h => by
    by_cases hm : m < 10 <;> by_cases hn : n < 10
    · rw [decDigits_small hm, decDigits_small hn] at h
      injection h with h1 _
      exact digitChar_inj_lt hm hn h1
    · rw [decDigits_small hm, decDigits_large hn] at h
      have hlen := congrArg List.length h
      simp only [List.length_cons, List.length_nil, List.length_append] at hlen
      exact absurd (List.length_eq_zero.mp (by omega)) (decDigits_ne_nil (n / 10))
    · rw [decDigits_large hm, decDigits_small hn] at h
      have hlen := congrArg List.length h
      simp only [List.length_cons, List.length_nil, List.length_append] at hlen
      exact absurd (List.length_eq_zero.mp (by omega)) (decDigits_ne_nil (m / 10))
    · rw [decDigits_large hm, decDigits_large hn] at h
      obtain ⟨h1, h2⟩ := List.append_inj' h rfl
      injection h2 with h2 _
      have hd : m % 10 = n % 10 :=
        digitChar_inj_lt (Nat.mod_lt _ (by omega)) (Nat.mod_lt _ (by omega)) h2
      have hq : m / 10 = n / 10 := decDigits_inj (m / 10) (n / 10) h1
      omega
termination_by m _ => m
decreasing_by exact Nat.div_lt_self (by omega) (by omega)

theorem toDigits_eq_decDigits (n : Nat) : Nat.toDigits 10 n = decDigits n := by
  show Nat.toDigitsCore 10 (n + 1) n [] = decDigits n
  rw [toDigitsCore_eq_decDigits (n + 1) n [] (Nat.lt_succ_self n), List.append_nil]

theorem nat_repr_inj {m n : Nat} (h : Nat.repr m = Nat.repr n) : m = n := by
  apply decDigits_inj
  have hm : (Nat.repr m).data = decDigits m := by
    show (Nat.toDigits 10 m).asString.data = decDigits m
    rw [toDigits_eq_decDigits]
    rfl
  have hn : (Nat.repr n).data = decDigits n := by
    show (Nat.toDigits 10 n).asString.data = decDigits n
    rw [toDigits_eq_decDigits]
    rfl
  rw [← hm, ← hn, h]

/-- The id assignment performed at the top of both `call_claude` and
`call_claude_api` (whichever transport `analyze_with_claude` selects):
`for i, a in enumerate(articles): a["id"] = str(i)`. -/
def assignIds (articles : List Article) : List Article :=
  articles.enum.map (fun p => { p.2 with id := some (Nat.repr p.1) })

/-- The filter → exclusion → dedup → relevance-entry portion of
`collect_topic`, tracking the article list as it stands when
`merge_results` is reached: the relevance step (where ids are assigned) is
entered only when the deduplicated list is nonempty (`if all_articles:`). -/
def collectPipeline (raw : List Article) (since : Datetime) (excludeKw : List String) :
    List Article :=
  let deduped := deduplicate (filter_excluded_keywords (filter_by_date raw since) excludeKw)
  if deduped.isEmpty then deduped else assignIds deduped

theorem filter_excluded_sublist (l : List Article) (ex : List String) :
    (filter_excluded_keywords l ex).Sublist l := by
  rw [filter_excluded_keywords]
  split
  · exact List.Sublist.refl l
  · exact List.filter_sublist l

theorem assignIds_map_id (l : List Article) :
    (assignIds l).map (fun a => a.id) = (List.range l.length).map (fun i => some (Nat.repr i)) := by
  rw [assignIds, List.map_map]
  rw [show ((fun a : Article => a.id) ∘ fun p : Nat × Article =>
              ({ p.2 with id := some (Nat.repr p.1) } : Article))
      = ((fun i => some (Nat.repr i)) ∘ Prod.fst) from rfl]
  rw [← List.map_map, List.enum_map_fst]

/-- Claim C9: ids are assigned only on entry to the relevance stage: if every
raw article arrives without id, every article still has no id after the
date filter, the exclusion filter and the deduplicator; when the
deduplicated list is nonempty, each of its articles receives exactly its
zero-based position rendered as a decimal string, so all ids of a run are
pairwise distinct; when it is empty the relevance step is skipped and no
id is ever assigned. -/
theorem collectPipeline_ids (raw : List Article) (since : Datetime)
    (excludeKw : List String) (h0 : ∀ a ∈ raw, a.id = none) :
    (∀ a ∈ deduplicate (filter_excluded_keywords (filter_by_date raw since) excludeKw),
      a.id = none)
    ∧ ((deduplicate (filter_excluded_keywords (filter_by_date raw since) excludeKw)).isEmpty
        = false →
      (collectPipeline raw since excludeKw).map (fun a => a.id)
        = (List.range (deduplicate (filter_excluded_keywords (filter_by_date raw since)
            excludeKw)).length).map (fun i => some (Nat.repr i))
      ∧ ((collectPipeline raw since excludeKw).map (fun a => a.id)).Nodup)
    ∧ ((deduplicate (filter_excluded_keywords (filter_by_date raw since) excludeKw)).isEmpty
        = true →
      collectPipeline raw since excludeKw = []) := by
  have hsub : (deduplicate (filter_excluded_keywords (filter_by_date raw since)
      excludeKw)).Sublist raw :=
    ((dedupAux_sublist [] _).trans (filter_excluded_sublist _ excludeKw)).trans
      (List.filter_sublist raw)
  refine ⟨fun a ha => h0 a (hsub.subset ha), ?_, ?_⟩
  · intro hne
    have hpipe : collectPipeline raw since excludeKw
        = assignIds (deduplicate (filter_excluded_keywords (filter_by_date raw since)
            excludeKw)) := by
      rw [collectPipeline]
      simp only [hne]
      rfl
    constructor
    · rw [hpipe, assignIds_map_id]
    · rw [hpipe, assignIds_map_id]
      refine List.Nodup.map ?_ (List.nodup_range _)
      intro a b hab
      exact nat_repr_inj (Option.some.inj hab)
  · intro hyes
    rw [collectPipeline]
    simp only [hyes]
    rw [if_pos trivial]
    exact List.isEmpty_iff.mp hyes

/-- A concrete two-article raw batch for exercising the pipeline. -/
def pipelineRaw : List Article :=
  [{ title := "alpha", published := some ⟨0, some 0⟩ },
   { title := "beta", published := some ⟨0, some 0⟩ }]

/-- A concrete collection window start. -/
def pipelineSince : Datetime := ⟨0, some 0⟩

/-- Witness for C9 at a concrete two-article run; additionally checks
concretely that the two surviving articles get ids "0" and "1". -/
theorem collectPipeline_ids_witness :
    (∀ a ∈ pipelineRaw, a.id = none)
    ∧ ((∀ a ∈ deduplicate (filter_excluded_keywords (filter_by_date pipelineRaw pipelineSince)
          []), a.id = none)
      ∧ ((deduplicate (filter_excluded_keywords (filter_by_date pipelineRaw pipelineSince)
            [])).isEmpty = false →
        (collectPipeline pipelineRaw pipelineSince []).map (fun a => a.id)
          = (List.range (deduplicate (filter_excluded_keywords
              (filter_by_date pipelineRaw pipelineSince) [])).length).map
              (fun i => some (Nat.repr i))
        ∧ ((collectPipeline pipelineRaw pipelineSince []).map (fun a => a.id)).Nodup)
      ∧ ((deduplicate (filter_excluded_keywords (filter_by_date pipelineRaw pipelineSince)
            [])).isEmpty = true →
        collectPipeline pipelineRaw pipelineSince [] = []))
    ∧ (collectPipeline pipelineRaw pipelineSince []).map (fun a => a.id)
        = [some "0", some "1"] :=
  ⟨by decide, collectPipeline_ids pipelineRaw pipelineSince [] (by decide), by decide⟩

end Collect
